import Mathlib

/-!
Verification of the cuckoo-hash debugging/statistics module of
`src/cudpp_hash/debugging.cu`: the slot-collision analyzer kernel
`take_hash_function_statistics`, the host-side statistics reductions
`TakeHashFunctionStatistics`, `OutputRetrievalStatistics` and
`OutputBuildStatistics`, and the stash dump `PrintStashContents`.

Embedding conventions: a C pointer/array read `a[i]` becomes application
of a function `a : Nat → Nat`; a `for` loop becomes a fold over
`List.range`/`List.range'`; the atomic counter updates of the kernel
become a fold of point increments over the list of increment targets
(atomicity means no increment is lost, so the final value of a cell is
exactly the number of increments that targeted it); a nullable output
pointer becomes an `Option`.
-/

namespace CudaHT.CuckooHashing

/-- Modelled from the spec: `hash_function_inner` is declared in
`hash_table.h`, which is outside the visible source.  The spec describes
it as a multiplicative hash driven by a per-function
(multiplier, increment) constant pair over 32-bit unsigned arithmetic. -/
def hash_function_inner (c : Nat × Nat) (key : Nat) : Nat :=
  (c.1 * key + c.2) % 4294967296

/-- Modelled from the spec: `kMaxHashFunctions` is a small compile-time
bound on the number of hash functions; its exact value is not in the
visible source. -/
def kMaxHashFunctions : Nat := 5

/-- `locations[i] = hash_function_inner(constants[i], key) % table_size`
(debugging.cu, line 38 of `take_hash_function_statistics`). -/
def location (constants : Nat → Nat × Nat) (table_size key : Nat) (i : Nat) : Nat :=
  hash_function_inner (constants i) key % table_size

/-- The distinct-slot-count loop of `take_hash_function_statistics`
(lines 46-58): `num_slots` starts at 1; for each `i` in
`[1, num_functions)` it is incremented exactly when `locations[i]`
matches no `locations[j]` with `j < i`. -/
def num_slots (loc : Nat → Nat) (num_functions : Nat) : Nat :=
  (List.range' 1 (num_functions - 1)).foldl
    (fun acc i => if (List.range i).any (fun j => loc i == loc j) then acc else acc + 1) 1

/-- The per-key `DistinctSlotCount` written to
`num_slots_available[thread_index]` (line 61): thread `t` reads
`key = keys[t]` and runs the distinct-slot loop over its locations. -/
def distinct_count (keys : Nat → Nat) (table_size : Nat) (constants : Nat → Nat × Nat)
    (num_functions t : Nat) : Nat :=
  num_slots (location constants table_size (keys t)) num_functions

/-- Aggregate effect of line 64-66 (`if (failed != NULL && num_slots !=
num_functions) *failed = 1;`) over all `n` threads, starting from flag
value `f0`: each thread whose key has `num_slots ≠ num_functions`
stores 1 (true); other threads leave the flag alone. -/
def kernel_flag (keys : Nat → Nat) (n table_size : Nat) (constants : Nat → Nat × Nat)
    (num_functions : Nat) (f0 : Bool) : Bool :=
  (List.range n).foldl
    (fun f t => if distinct_count keys table_size constants num_functions t ≠ num_functions
                then true else f) f0

/-- One atomic increment of cell `j` of counter array `c`
(`atomicAdd(num_hashing_in + locations[i], 1)`, line 41). -/
def bump (c : Nat → Nat) (j : Nat) : Nat → Nat :=
  fun s => if s = j then c s + 1 else c s

/-- Apply a list of atomic increments to a counter array.  Since the
increments are atomic, none is lost, and the cumulative effect does not
depend on interleaving order. -/
def applyIncrements (c : Nat → Nat) : List Nat → (Nat → Nat)
  | [] => c
  | j :: rest => applyIncrements (bump c j) rest

/-- The multiset of increment targets issued by the whole kernel grid
(lines 37-43): thread `t < n` increments `num_hashing_in[locations[i]]`
for each `i < num_functions`. -/
def incrementTargets (keys : Nat → Nat) (n table_size : Nat) (constants : Nat → Nat × Nat)
    (num_functions : Nat) : List Nat :=
  (List.range n).flatMap
    (fun t => (List.range num_functions).map (location constants table_size (keys t)))

/-- Final contents of the `num_hashing_in` array after the kernel has
processed all `n` keys, starting from contents `init`. -/
def slot_load_counter (keys : Nat → Nat) (n table_size : Nat) (constants : Nat → Nat × Nat)
    (num_functions : Nat) (init : Nat → Nat) : Nat → Nat :=
  applyIncrements init (incrementTargets keys n table_size constants num_functions)

/-- Aggregate result of one launch of `take_hash_function_statistics`:
each of the three output pointers may be null (`none`). -/
structure KernelResult where
  num_slots_available : Option (Nat → Nat)
  num_hashing_in : Option (Nat → Nat)
  failed : Option Bool

/-- One launch of the `take_hash_function_statistics` grid over `n`
keys.  Threads `t < n` write `distinct_count` to
`num_slots_available[t]` (cells at or beyond `n` keep their previous
contents), add 1 to `num_hashing_in[loc]` for each of their
`num_functions` locations, and OR the failure condition into `failed`;
a null output pointer suppresses the corresponding write. -/
def run_kernel (keys : Nat → Nat) (n table_size : Nat) (constants : Nat → Nat × Nat)
    (num_functions : Nat) (slotsPtr loadsPtr : Option (Nat → Nat))
    (failedPtr : Option Bool) : KernelResult :=
  { num_slots_available := slotsPtr.map
      (fun init t => if t < n then distinct_count keys table_size constants num_functions t
                     else init t),
    num_hashing_in := loadsPtr.map
      (fun init => slot_load_counter keys n table_size constants num_functions init),
    failed := failedPtr.map
      (fun f0 => kernel_flag keys n table_size constants num_functions f0) }

/-- The host entry point `TakeHashFunctionStatistics` (lines 70-179):
depending on the two compile-time switches it allocates the per-key and
per-slot output arrays (zeroed load counters), and it always passes
`NULL` as the `failed` argument of the kernel launch (line 106). -/
def TakeHashFunctionStatistics (keys : Nat → Nat) (num_keys table_size : Nat)
    (constants : Nat → Nat × Nat) (kNumHashFunctions : Nat)
    (count_into_each_slot count_cycles : Bool) : KernelResult :=
  run_kernel keys num_keys table_size constants kNumHashFunctions
    (if count_cycles then some (fun _ => 0) else none)
    (if count_into_each_slot then some (fun _ => 0) else none)
    none

/-- The key-assignment report of `TakeHashFunctionStatistics`
(lines 162-173): a histogram array of size `kNumHashFunctions + 1` is
zeroed, `histogram[num_slots_available[i]]++` is applied for every key,
and then the pair `(i, histogram[i])` is printed for every `i` in
`[1, kNumHashFunctions]`, in ascending order. -/
def slots_assigned_report (keys : Nat → Nat) (num_keys table_size : Nat)
    (constants : Nat → Nat × Nat) (kNumHashFunctions : Nat) : List (Nat × Nat) :=
  (List.range' 1 kNumHashFunctions).map
    (fun i => (i, applyIncrements (fun _ => 0)
      ((List.range num_keys).map (distinct_count keys table_size constants kNumHashFunctions)) i))

/-- `possible_probes = n_functions + 2`, the size of the retrieval
histogram allocated by `OutputRetrievalStatistics` (line 193). -/
def possible_probes (n_functions : Nat) : Nat := n_functions + 2

/-- The retrieval histogram array after the counting loop of
`OutputRetrievalStatistics` (lines 194-198): zeroed, then
`histogram[retrieval_probes[i]]++` for every query. -/
def retrieval_histogram (probes : List Nat) : Nat → Nat :=
  applyIncrements (fun _ => 0) probes

/-- The report emitted by `OutputRetrievalStatistics` (lines 204-207):
the pair `(i, histogram[i])` for every `i` in `[0, possible_probes)`,
in ascending order, zero counts included. -/
def OutputRetrievalStatistics (probes : List Nat) (n_functions : Nat) : List (Nat × Nat) :=
  (List.range (possible_probes n_functions)).map (fun i => (i, retrieval_histogram probes i))

/-- The ascending `std::sort` of `OutputBuildStatistics` (line 217),
modelled by insertion sort: any two ascending-sorted permutations of a
list are equal, so the model pins down the same list as `std::sort`. -/
def sortIterations (l : List Nat) : List Nat := l.insertionSort (· ≤ ·)

/-- The median reported by `OutputBuildStatistics` (line 242):
`iterations_taken[n/2]` after the ascending sort. -/
def build_median (l : List Nat) : Nat := (sortIterations l).getD (l.length / 2) 0

/-- The indices of `iterations_taken` read by `OutputBuildStatistics`:
every `i < n` in the summing and run-length loops, plus the
unconditional reads of element `0` (line 225), `n/2` and `n-1`
(line 242). -/
def build_stats_reads (n : Nat) : List Nat :=
  List.range n ++ [0, n / 2, n - 1]

/-- Modelled from the spec: `kStashSize`, the fixed stash capacity, is
declared in `hash_table.h`, outside the visible source. -/
def kStashSize : Nat := 101

/-- Modelled from the spec: `kKeyEmpty`, the reserved sentinel key
marking a vacant slot (the all-ones 32-bit word), is declared outside
the visible source. -/
def kKeyEmpty : Nat := 4294967295

/-- Modelled from the spec: an `Entry` is an encoded (key, value) pair;
the encoding itself is declared outside the visible source, so it is
modelled abstractly with its two accessors. -/
structure Entry where
  key : Nat
  value : Nat

/-- Accessor `get_key`, declared outside the visible source. -/
def get_key (e : Entry) : Nat := e.key

/-- Accessor `get_value`, declared outside the visible source. -/
def get_value (e : Entry) : Nat := e.value

/-- `PrintStashContents` (lines 252-263): scan stash indices
`0..kStashSize-1` in ascending order and emit the line
`(i, key, value)` for each entry whose key differs from `kKeyEmpty`. -/
def PrintStashContents (stash : Nat → Entry) : List (Nat × Nat × Nat) :=
  (List.range kStashSize).foldl
    (fun acc i => if get_key (stash i) != kKeyEmpty
                  then acc ++ [(i, get_key (stash i), get_value (stash i))] else acc) []

/-! ### General lemmas about the embedded loop shapes -/

theorem applyIncrements_count (L : List Nat) :
    ∀ (c : Nat → Nat) (s : Nat), applyIncrements c L s = c s + L.count s := by
  induction L with
  | nil => intro c s; simp [applyIncrements]
  | cons j rest ih =>
      intro c s
      rw [applyIncrements, ih]
      rcases eq_or_ne j s with h | h
      · subst h; simp [bump, List.count_cons]; omega
      · simp [bump, List.count_cons, h, Ne.symm h]

theorem count_sum_range (L : List Nat) (ts : Nat) (h : ∀ v ∈ L, v < ts) :
    ∑ s ∈ Finset.range ts, L.count s = L.length := by
  induction L with
  | nil => simp
  | cons v L ih =>
      have hv : v ∈ Finset.range ts := Finset.mem_range.mpr (h v (by simp))
      have hL : ∀ x ∈ L, x < ts := fun x hx => h x (List.mem_cons_of_mem _ hx)
      calc ∑ s ∈ Finset.range ts, (v :: L).count s
          = ∑ s ∈ Finset.range ts, (L.count s + if v = s then 1 else 0) := by
            refine Finset.sum_congr rfl fun s _ => ?_
            simp [List.count_cons]
        _ = (∑ s ∈ Finset.range ts, L.count s)
              + ∑ s ∈ Finset.range ts, (if v = s then 1 else 0) := Finset.sum_add_distrib
        _ = L.length + 1 := by rw [ih hL, Finset.sum_ite_eq]; simp [hv]
        _ = (v :: L).length := by simp

theorem list_sum_range (f : Nat → Nat) : ∀ (m : Nat),
    ((List.range m).map f).sum = ∑ i ∈ Finset.range m, f i := by
  intro m
  induction m with
  | zero => simp
  | succ k ih =>
      rw [List.range_succ, List.map_append, List.sum_append, Finset.sum_range_succ, ih]
      simp

theorem sum_map_const {α : Type} (k : Nat) : ∀ (l : List α),
    (l.map (fun _ => k)).sum = l.length * k := by
  intro l
  induction l with
  | nil => simp
  | cons a l ih => simp [ih]; ring

theorem foldl_flag (p : Nat → Prop) [DecidablePred p] :
    ∀ (L : List Nat) (f0 : Bool),
      L.foldl (fun f t => if p t then true else f) f0
        = (f0 || L.any fun t => decide (p t)) := by
  intro L
  induction L with
  | nil => intro f0; simp
  | cons a L ih =>
      intro f0
      rw [List.foldl_cons, ih]
      by_cases h : p a <;> simp [h]

theorem foldl_ite_le (p : Nat → Bool) :
    ∀ (L : List Nat) (k : Nat),
      L.foldl (fun acc i => if p i then acc else acc + 1) k ≤ k + L.length := by
  intro L
  induction L with
  | nil => intro k; simp
  | cons a L ih =>
      intro k
      rw [List.foldl_cons]
      by_cases h : p a
      · rw [if_pos h]
        exact le_trans (ih k) (by simp)
      · rw [if_neg h]
        exact le_trans (ih (k + 1)) (by simp; omega)

theorem num_slots_le (loc : Nat → Nat) (nf : Nat) (h : 1 ≤ nf) :
    num_slots loc nf ≤ nf := by
  have hle := foldl_ite_le
    (fun i => (List.range i).any fun j => loc i == loc j) (List.range' 1 (nf - 1)) 1
  rw [List.length_range'] at hle
  rw [num_slots]
  omega

theorem foldl_filter_map {α : Type} (p : Nat → Bool) (f : Nat → α) :
    ∀ (L : List Nat) (acc : List α),
      L.foldl (fun a i => if p i then a ++ [f i] else a) acc
        = acc ++ (L.filter p).map f := by
  intro L
  induction L with
  | nil => intro acc; simp
  | cons x L ih =>
      intro acc
      rw [List.foldl_cons]
      cases hpx : p x with
      | true => simp [hpx, ih, List.filter_cons]
      | false => simp [hpx, ih, List.filter_cons]

theorem num_slots_eq_card (loc : Nat → Nat) :
    ∀ (n : Nat), 1 ≤ n → num_slots loc n = ((List.range n).map loc).toFinset.card := by
  intro n hn
  induction n, hn using Nat.le_induction with
  | base =>
      rw [show List.range 1 = [0] from rfl]
      simp [num_slots]
  | succ n hn ih =>
      have h1 : n + 1 - 1 = (n - 1) + 1 := by omega
      have hrange : List.range' 1 (n + 1 - 1) = List.range' 1 (n - 1) ++ [n] := by
        rw [h1, List.range'_concat]
        congr 2
        omega
      rw [num_slots, hrange, List.foldl_append]
      have hfold : (List.range' 1 (n - 1)).foldl
          (fun acc i => if (List.range i).any (fun j => loc i == loc j) then acc else acc + 1) 1
          = num_slots loc n := rfl
      rw [hfold, List.foldl_cons, List.foldl_nil,
          List.range_succ, List.map_append, List.toFinset_append]
      simp only [List.map_cons, List.map_nil, List.toFinset_cons, List.toFinset_nil]
      rw [Finset.union_comm, Finset.insert_union, Finset.empty_union]
      by_cases h : (List.range n).any (fun j => loc n == loc j)
      · have hmem : loc n ∈ ((List.range n).map loc).toFinset := by
          rw [List.any_eq_true] at h
          obtain ⟨j, hj, hbeq⟩ := h
          rw [beq_iff_eq] at hbeq
          rw [List.mem_toFinset, List.mem_map]
          exact ⟨j, hj, hbeq.symm⟩
        rw [if_pos h, ih, Finset.card_insert_of_mem hmem]
      · have hmem : loc n ∉ ((List.range n).map loc).toFinset := by
          intro hc
          apply h
          rw [List.mem_toFinset, List.mem_map] at hc
          obtain ⟨j, hj, hje⟩ := hc
          rw [List.any_eq_true]
          exact ⟨j, hj, beq_iff_eq.mpr hje.symm⟩
        rw [if_neg h, ih, Finset.card_insert_of_not_mem hmem]

/-! ### The claims -/

/-- C1: for every key, every `table_size ≥ 1`, every ordered sequence of
hash-function constants and every `num_functions` in
`[1, kMaxHashFunctions]`, the `DistinctSlotCount` computed by the
analyzer kernel (starting at 1 and incrementing for each `i` in
`[1, num_functions)` whose slot matches no earlier slot) equals the
cardinality of the set of slots
`{hash(constants_i, key) % table_size : i < num_functions}`. -/
theorem distinct_slot_count_eq_card (key table_size : Nat) (constants : Nat → Nat × Nat)
    (num_functions : Nat) (h1 : 1 ≤ table_size) (h2 : 1 ≤ num_functions)
    (h3 : num_functions ≤ kMaxHashFunctions) :
    num_slots (location constants table_size key) num_functions =
      ((List.range num_functions).map (location constants table_size key)).toFinset.card :=
  num_slots_eq_card (location constants table_size key) num_functions h2

/-- Witness for C1 at `key = 0`, `table_size = 10`,
`constants i = (1, i)`, `num_functions = 2`. -/
theorem distinct_slot_count_eq_card_witness :
    num_slots (location (fun i => (1, i)) 10 0) 2 =
      ((List.range 2).map (location (fun i => (1, i)) 10 0)).toFinset.card :=
  distinct_slot_count_eq_card 0 10 (fun i => (1, i)) 2 (by decide) (by decide) (by decide)

/-- C2: with the failure-flag output enabled, after the analyzer kernel
has run over all `n` keys the flag is set iff some key's
`DistinctSlotCount` is strictly below `num_functions`, and a flag that
starts true stays true (the write is an idempotent OR). -/
theorem failure_flag_iff (keys : Nat → Nat) (n table_size : Nat)
    (constants : Nat → Nat × Nat) (num_functions : Nat) (h : 1 ≤ num_functions) :
    (kernel_flag keys n table_size constants num_functions false = true ↔
      ∃ t, t < n ∧ distinct_count keys table_size constants num_functions t < num_functions)
    ∧ kernel_flag keys n table_size constants num_functions true = true := by
  have hfold := foldl_flag
    (fun t => distinct_count keys table_size constants num_functions t ≠ num_functions)
    (List.range n)
  constructor
  · rw [kernel_flag, hfold false, Bool.false_or, List.any_eq_true]
    constructor
    · rintro ⟨t, ht, hdec⟩
      rw [List.mem_range] at ht
      rw [decide_eq_true_eq] at hdec
      exact ⟨t, ht, lt_of_le_of_ne (num_slots_le _ _ h) hdec⟩
    · rintro ⟨t, ht, hlt⟩
      exact ⟨t, List.mem_range.mpr ht, decide_eq_true (Nat.ne_of_lt hlt)⟩
  · rw [kernel_flag, hfold true, Bool.true_or]

/-- Witness for C2 at one key hashing twice into a table of size 1
(both slots equal, so the distinct count 1 is below 2). -/
theorem failure_flag_iff_witness :
    (kernel_flag (fun _ => 0) 1 1 (fun _ => (0, 0)) 2 false = true ↔
      ∃ t, t < 1 ∧ distinct_count (fun _ => 0) 1 (fun _ => (0, 0)) 2 t < 2)
    ∧ kernel_flag (fun _ => 0) 1 1 (fun _ => (0, 0)) 2 true = true :=
  failure_flag_iff (fun _ => 0) 1 1 (fun _ => (0, 0)) 2 (by decide)

/-- C3: with per-slot load counting enabled and all counters starting
at zero, after the kernel has processed all `n` keys the sum of
`num_hashing_in` over the `table_size` slots is `n * num_functions`:
each key contributes exactly `num_functions` atomic increments and none
is lost. -/
theorem slot_load_counter_total (keys : Nat → Nat) (n table_size : Nat)
    (constants : Nat → Nat × Nat) (num_functions : Nat) (h : 1 ≤ table_size) :
    ∑ s ∈ Finset.range table_size,
        slot_load_counter keys n table_size constants num_functions (fun _ => 0) s
      = n * num_functions := by
  have hmem : ∀ v ∈ incrementTargets keys n table_size constants num_functions,
      v < table_size := by
    intro v hv
    rw [incrementTargets, List.mem_flatMap] at hv
    obtain ⟨t, _, hv⟩ := hv
    rw [List.mem_map] at hv
    obtain ⟨i, _, rfl⟩ := hv
    exact Nat.mod_lt _ h
  have h1 : ∀ s ∈ Finset.range table_size,
      slot_load_counter keys n table_size constants num_functions (fun _ => 0) s
        = (incrementTargets keys n table_size constants num_functions).count s := by
    intro s _
    rw [slot_load_counter, applyIncrements_count, Nat.zero_add]
  rw [Finset.sum_congr rfl h1, count_sum_range _ _ hmem, incrementTargets,
      List.length_flatMap]
  rw [List.map_congr_left
        (g := fun _ => num_functions) (fun t _ => by simp),
      sum_map_const, List.length_range]

/-- Witness for C3 at two keys, three slots, two hash functions:
the loads sum to `2 * 2`. -/
theorem slot_load_counter_total_witness :
    ∑ s ∈ Finset.range 3,
        slot_load_counter (fun t => t) 2 3 (fun _ => (1, 0)) 2 (fun _ => 0) s = 2 * 2 :=
  slot_load_counter_total (fun t => t) 2 3 (fun _ => (1, 0)) 2 (by decide)

/-- C4: for every probe-count sequence whose entries lie in the valid
domain `[0, n_functions + 1]`, the retrieval report is a dense
histogram: exactly `n_functions + 2` buckets, keyed by `0, 1, ...,
n_functions + 1` in ascending order (zero-count buckets included), and
the bucket counts sum to the number of queries. -/
theorem retrieval_histogram_dense (probes : List Nat) (n_functions : Nat)
    (h : ∀ p ∈ probes, p ≤ n_functions + 1) :
    (OutputRetrievalStatistics probes n_functions).length = possible_probes n_functions ∧
    (OutputRetrievalStatistics probes n_functions).map Prod.fst
      = List.range (possible_probes n_functions) ∧
    ((OutputRetrievalStatistics probes n_functions).map Prod.snd).sum = probes.length := by
  refine ⟨by simp [OutputRetrievalStatistics],
          ?_, ?_⟩
  · rw [OutputRetrievalStatistics, List.map_map]
    exact List.map_id (List.range (possible_probes n_functions))
  rw [OutputRetrievalStatistics, List.map_map]
  rw [show (Prod.snd ∘ fun i => (i, retrieval_histogram probes i))
        = fun i => retrieval_histogram probes i from rfl]
  rw [list_sum_range]
  have h1 : ∀ s ∈ Finset.range (possible_probes n_functions),
      retrieval_histogram probes s = probes.count s := by
    intro s _
    rw [retrieval_histogram, applyIncrements_count, Nat.zero_add]
  rw [Finset.sum_congr rfl h1]
  refine count_sum_range probes _ fun v hv => ?_
  have := h v hv
  rw [possible_probes]
  omega

/-- Witness for C4 at the spec scenario: probes `[0,1,1,2]`,
`n_functions = 2`. -/
theorem retrieval_histogram_dense_witness :
    (OutputRetrievalStatistics [0, 1, 1, 2] 2).length = possible_probes 2 ∧
    (OutputRetrievalStatistics [0, 1, 1, 2] 2).map Prod.fst
      = List.range (possible_probes 2) ∧
    ((OutputRetrievalStatistics [0, 1, 1, 2] 2).map Prod.snd).sum
      = ([0, 1, 1, 2] : List Nat).length :=
  retrieval_histogram_dense [0, 1, 1, 2] 2 (by decide)

/-- C5: for a non-empty iteration-count sequence, the reported median is
the element at index `n / 2` (integer division) of the ascending-sorted
sequence — the upper middle element for even `n`, never an average. -/
theorem build_median_upper_middle (l l2 : List Nat) (hne : l ≠ [])
    (hperm : l2.Perm l) (hsorted : l2.Sorted (· ≤ ·)) :
    build_median l = l2.getD (l.length / 2) 0 := by
  have h1 : (sortIterations l).Perm l2 := (List.perm_insertionSort _ l).trans hperm.symm
  have h2 : List.Sorted (· ≤ ·) (sortIterations l) := List.sorted_insertionSort _ l
  rw [build_median, List.eq_of_perm_of_sorted h1 h2 hsorted]

/-- Witness for C5 at the spec example: the sorted form of
`[2,4,1,3]` is `[1,2,3,4]` and the reported median is `3`, not `2.5`. -/
theorem build_median_upper_middle_witness : build_median [2, 4, 1, 3] = 3 := by
  have h := build_median_upper_middle [2, 4, 1, 3] [1, 2, 3, 4]
    (by decide) (by decide) (by decide)
  rw [h]
  rfl

/-- C6 counterexample: with one key whose two slots are distinct
(`key = 0`, `table_size = 10`, `constants i = (1, i)`,
`num_functions = 2`), the emitted key-assignment histogram contains the
bucket `(1, 0)` — a bucket whose value `1` occurs among no key's
distinct count — so the histogram does not contain only observed
values. -/
theorem key_assignment_histogram_zero_bucket :
    (1, 0) ∈ slots_assigned_report (fun _ => 0) 1 10 (fun i => (1, i)) 2 := by
  decide

/-- C6 amended: the key-assignment report is a dense histogram over the
bucket values `1, ..., num_functions` in ascending order, bucket `i`
carrying the number of keys whose `DistinctSlotCount` equals `i`;
zero-count buckets are emitted as well. -/
theorem key_assignment_histogram_dense (keys : Nat → Nat) (num_keys table_size : Nat)
    (constants : Nat → Nat × Nat) (kNumHashFunctions : Nat) :
    slots_assigned_report keys num_keys table_size constants kNumHashFunctions =
      (List.range' 1 kNumHashFunctions).map
        (fun i => (i, ((List.range num_keys).map
            (distinct_count keys table_size constants kNumHashFunctions)).count i)) := by
  rw [slots_assigned_report]
  refine List.map_congr_left fun i _ => ?_
  rw [applyIncrements_count, Nat.zero_add]

/-- C7: `OutputBuildStatistics` reads elements `0`, `n/2` and `n-1` of
its input unconditionally (besides the loop reads below `n`), so all of
its array reads are in bounds exactly when the input is non-empty. -/
theorem build_stats_reads_in_bounds_iff (n : Nat) :
    (∀ i ∈ build_stats_reads n, i < n) ↔ 1 ≤ n := by
  constructor
  · intro h
    have h0 : (0 : Nat) ∈ build_stats_reads n := by simp [build_stats_reads]
    have := h 0 h0
    omega
  · intro hn i hi
    rw [build_stats_reads] at hi
    simp only [List.mem_append, List.mem_range, List.mem_cons,
      List.mem_singleton, List.not_mem_nil, or_false] at hi
    rcases hi with hi | hi | hi | hi <;> omega

/-- C8: the stash dump scans indices `0 .. kStashSize - 1` in ascending
order and emits one `(index, key, value)` line for each and only each
entry whose key differs from `kKeyEmpty`; the snapshot itself is left
untouched (the dump is a pure function of it). -/
theorem stash_dump_eq_filter_map (stash : Nat → Entry) :
    PrintStashContents stash =
      ((List.range kStashSize).filter (fun i => get_key (stash i) != kKeyEmpty)).map
        (fun i => (i, get_key (stash i), get_value (stash i))) := by
  rw [PrintStashContents, foldl_filter_map]
  rw [List.nil_append]

/-- C9: the host entry point `TakeHashFunctionStatistics` always passes
a null failure-flag pointer to the kernel launch, so no invocation
through it ever sets or reports the failure flag, whatever the inputs
and compile-time switches. -/
theorem take_hash_function_statistics_no_failure_flag (keys : Nat → Nat)
    (num_keys table_size : Nat) (constants : Nat → Nat × Nat) (kNumHashFunctions : Nat)
    (count_into_each_slot count_cycles : Bool) :
    (TakeHashFunctionStatistics keys num_keys table_size constants kNumHashFunctions
        count_into_each_slot count_cycles).failed = none := rfl

/-- C10: `OutputRetrievalStatistics` indexes its histogram of size
`possible_probes = n_functions + 2` directly with each probe count and
no bounds check, so all histogram writes are in bounds iff every probe
count is at most `n_functions + 1`; under that precondition no
increment is lost (the in-table cells absorb all `n_queries` of
them). -/
theorem retrieval_probe_bounds (probes : List Nat) (n_functions : Nat) :
    ((∀ p ∈ probes, p ≤ n_functions + 1) ↔
      (∀ p ∈ probes, p < possible_probes n_functions))
    ∧ ((∀ p ∈ probes, p ≤ n_functions + 1) →
        ∑ s ∈ Finset.range (possible_probes n_functions), retrieval_histogram probes s
          = probes.length) := by
  constructor
  · constructor <;> intro h p hp <;> have := h p hp <;> rw [possible_probes] at * <;> omega
  · intro h
    have h1 : ∀ s ∈ Finset.range (possible_probes n_functions),
        retrieval_histogram probes s = probes.count s := by
      intro s _
      rw [retrieval_histogram, applyIncrements_count, Nat.zero_add]
    rw [Finset.sum_congr rfl h1]
    refine count_sum_range probes _ fun v hv => ?_
    have := h v hv
    rw [possible_probes]
    omega

/-- Witness for C10 at probes `[0,1,1,2]`, `n_functions = 2`: all four
increments land inside the table. -/
theorem retrieval_probe_bounds_witness :
    ∑ s ∈ Finset.range (possible_probes 2), retrieval_histogram [0, 1, 1, 2] s
      = ([0, 1, 1, 2] : List Nat).length :=
  (retrieval_probe_bounds [0, 1, 1, 2] 2).2 (by decide)

end CudaHT.CuckooHashing
